import Mathlib

/-!
Shallow embedding of the bias-gelu fusion pass of
`onnxruntime/core/optimizer/bias_gelu_fusion.cc` (function `BiasGelu::ApplyImpl`)
over a functional model of the ONNX Runtime graph IR described by the
accompanying design document.  Graph-IR primitives whose implementation is not
part of the excerpt (`Graph::AddNode`, `Graph::GenerateNodeName`,
`graph_utils::FinalizeNodeFusion`, `graph_utils::IsSupportedOptypeVersionAndDomain`,
`graph_utils::IsSupportedProvider`, `GraphTransformer::Recurse`,
`GraphViewer::GetNodesInTopologicalOrder`) are modelled from the spec, as
marked in their doc comments.  Everything else is translated directly from the
source of `BiasGelu::ApplyImpl`.
-/

namespace OnnxOpt

/-- One dimension of a tensor shape: a fixed extent, a named symbolic
extent, or a fully unknown extent.  Only the number of dimensions matters to
the fusion pass (`dim_size()`), never their contents. -/
inductive Dim : Type where
  | fixed : Nat → Dim
  | symbolic : String → Dim
  | unknown : Dim
deriving DecidableEq, Repr

/-- A `TensorShapeProto`: an ordered list of dimensions. -/
structure TensorShapeProto : Type where
  dims : List Dim
deriving DecidableEq, Repr

/-- The `dim_size()` of a shape: the number of dimensions. -/
def TensorShapeProto.dimSize (s : TensorShapeProto) : Nat := s.dims.length

/-- A `NodeArg`: a named, typed value flowing between nodes.  `shape = none`
models a null `Shape()` pointer (statically unknown shape). -/
structure NodeArg : Type where
  name : String
  shape : Option TensorShapeProto
  elemType : String
deriving DecidableEq, Repr

mutual

/-- A graph node: stable index, node name, operator type, operator domain,
operator since-version, ordered input and output `NodeArg`s, assigned
execution provider, and the nested subgraphs owned by the node (empty for
ordinary operators). -/
inductive Node : Type where
  | mk (index : Nat) (name : String) (opType : String) (domain : String)
       (sinceVersion : Nat) (inputDefs : List NodeArg) (outputDefs : List NodeArg)
       (execProvider : String) (subgraphs : List Graph) : Node

/-- A graph: its nodes (stored in a valid topological order), the declared
graph-level input and output value names, the next fresh node index, and a
counter used to generate fresh node names. -/
inductive Graph : Type where
  | mk (nodes : List Node) (graphInputs : List String) (graphOutputs : List String)
       (nextIndex : Nat) (nameCounter : Nat) : Graph

end

def Node.index : Node → Nat
  | .mk i _ _ _ _ _ _ _ _ => i

def Node.name : Node → String
  | .mk _ n _ _ _ _ _ _ _ => n

def Node.opType : Node → String
  | .mk _ _ t _ _ _ _ _ _ => t

def Node.domain : Node → String
  | .mk _ _ _ d _ _ _ _ _ => d

def Node.sinceVersion : Node → Nat
  | .mk _ _ _ _ v _ _ _ _ => v

def Node.inputDefs : Node → List NodeArg
  | .mk _ _ _ _ _ ins _ _ _ => ins

def Node.outputDefs : Node → List NodeArg
  | .mk _ _ _ _ _ _ outs _ _ => outs

def Node.execProvider : Node → String
  | .mk _ _ _ _ _ _ _ p _ => p

def Node.subgraphs : Node → List Graph
  | .mk _ _ _ _ _ _ _ _ s => s

/-- Replace a node's owned subgraphs (used when the driver writes recursively
optimized subgraphs back into their owning node). -/
def Node.setSubgraphs : Node → List Graph → Node
  | .mk i n t d v ins outs p _, s => .mk i n t d v ins outs p s

/-- Replace a node's output definitions. -/
def Node.setOutputDefs : Node → List NodeArg → Node
  | .mk i n t d v ins _ p s, outs => .mk i n t d v ins outs p s

/-- The source's `Node::SetExecutionProviderType`. -/
def Node.setExecProvider : Node → String → Node
  | .mk i n t d v ins outs _ s, p => .mk i n t d v ins outs p s

def Graph.nodes : Graph → List Node
  | .mk ns _ _ _ _ => ns

def Graph.graphInputs : Graph → List String
  | .mk _ gi _ _ _ => gi

def Graph.graphOutputs : Graph → List String
  | .mk _ _ go _ _ => go

def Graph.nextIndex : Graph → Nat
  | .mk _ _ _ x _ => x

def Graph.nameCounter : Graph → Nat
  | .mk _ _ _ _ c => c

/-- The source's `Graph::GetNode(index)`: the node with the given stable index, or `none`
if it has been removed. -/
def Graph.getNode (g : Graph) (i : Nat) : Option Node :=
  g.nodes.find? (fun nd => nd.index == i)

/-- Modelled from the spec: `GraphViewer::GetNodesInTopologicalOrder` produces
the node indices in a valid topological order; the embedding stores a graph's
nodes in such an order, so the traversal order is the stored order. -/
def Graph.getNodesInTopologicalOrder (g : Graph) : List Nat :=
  g.nodes.map Node.index

/-- Overwrite the node stored at index `i` (identity if `i` is absent). -/
def Graph.setNode (g : Graph) (i : Nat) (nd : Node) : Graph :=
  .mk (g.nodes.map fun n => if n.index == i then nd else n)
    g.graphInputs g.graphOutputs g.nextIndex g.nameCounter

/-- Replace the output definitions of the node stored at index `i`. -/
def Graph.setNodeOutputDefs (g : Graph) (i : Nat) (outs : List NodeArg) : Graph :=
  .mk (g.nodes.map fun n => if n.index == i then n.setOutputDefs outs else n)
    g.graphInputs g.graphOutputs g.nextIndex g.nameCounter

/-- Set the execution provider of the node stored at index `i`
(`Node::SetExecutionProviderType` on `graph.GetNode(i)`). -/
def Graph.setNodeExecProvider (g : Graph) (i : Nat) (p : String) : Graph :=
  .mk (g.nodes.map fun n => if n.index == i then n.setExecProvider p else n)
    g.graphInputs g.graphOutputs g.nextIndex g.nameCounter

/-- Remove the node stored at index `i`. -/
def Graph.removeNode (g : Graph) (i : Nat) : Graph :=
  .mk (g.nodes.filter fun n => n.index != i)
    g.graphInputs g.graphOutputs g.nextIndex g.nameCounter

/-- The source's `Node::GetOutputEdgesCount()` for `nd` inside `g`: the number of
(consumer node, input slot) pairs across the graph that reference one of
`nd`'s outputs (the spec's definition of output edge count). -/
def Graph.outputEdgesCount (g : Graph) (nd : Node) : Nat :=
  (g.nodes.map fun c =>
    (c.inputDefs.filter fun a => nd.outputDefs.any fun o => o.name == a.name).length).sum

/-- The source's `Node::OutputNodesBegin()/OutputNodesEnd()`: the consumers of `nd`'s
outputs, in graph storage order. -/
def Graph.outputNodes (g : Graph) (nd : Node) : List Node :=
  g.nodes.filter fun c => c.inputDefs.any fun a => nd.outputDefs.any fun o => o.name == a.name

/-- The source's `Graph::GetNodeOutputsInGraphOutputs(node)`: those outputs of `nd` that
are declared graph-level outputs. -/
def Graph.getNodeOutputsInGraphOutputs (g : Graph) (nd : Node) : List NodeArg :=
  nd.outputDefs.filter fun o => g.graphOutputs.contains o.name

/-- Modelled from the spec: `Graph::GenerateNodeName(pfx)` produces a node
name that cannot collide with an existing one, via a monotonic counter scoped
to the graph's lifetime.  Returns the updated graph and the fresh name. -/
def Graph.generateNodeName (g : Graph) (pfx : String) : Graph × String :=
  (.mk g.nodes g.graphInputs g.graphOutputs g.nextIndex (g.nameCounter + 1),
   pfx ++ toString g.nameCounter)

/-- Modelled from the spec: `Graph::AddNode` creates a node with a fresh
stable index and appends it to the graph.  The spec's `NameCollision` failure
cannot arise at the fusion call site because the replacement node is created
with an empty output list, so the operation is modelled total.  The execution
provider is assigned by a separate `SetExecutionProviderType` step, as in the
source. -/
def Graph.addNode (g : Graph) (nodeName : String) (opType : String)
    (inputs : List NodeArg) (outputs : List NodeArg) (domain : String)
    (sinceVersion : Nat) : Graph × Nat :=
  (.mk (g.nodes ++ [Node.mk g.nextIndex nodeName opType domain sinceVersion inputs outputs "" []])
    g.graphInputs g.graphOutputs (g.nextIndex + 1) g.nameCounter,
   g.nextIndex)

/-- The ONNX standard operator domain (`kOnnxDomain` is the empty string). -/
def kOnnxDomain : String := ""

/-- The Microsoft contrib-operator domain. -/
def kMSDomain : String := "com.microsoft"

/-- Modelled from the spec: `graph_utils::IsSupportedOptypeVersionAndDomain`
checks that the node's operator type, since-version and domain match the
required signature. -/
def isSupportedOptypeVersionAndDomain (nd : Node) (opType : String)
    (versions : List Nat) (domain : String) : Bool :=
  nd.opType == opType && versions.contains nd.sinceVersion && nd.domain == domain

/-- Modelled from the spec: `graph_utils::IsSupportedProvider` checks that
the node's assigned execution backend is among the set of backends the rule
declares compatible. -/
def isSupportedProvider (nd : Node) (compatibleEps : List String) : Bool :=
  compatibleEps.contains nd.execProvider

/-- The null-check-and-rank test from `BiasGelu::ApplyImpl` lines 35-40:
`shape != nullptr && shape->dim_size() == 1`. -/
def rankOne : Option TensorShapeProto → Bool
  | some s => s.dimSize == 1
  | none => false

/-- Lines 32-45 of `BiasGelu::ApplyImpl`: build the `gelu_input` vector.  If
the first input of the Add has a statically known rank-1 shape it is the bias
and `gelu_input = [input2, input1]`; otherwise, if the second input does,
`gelu_input = [input1, input2]`; otherwise decline (`continue`). -/
def biasGeluInputs (nd : Node) : Option (List NodeArg) :=
  match nd.inputDefs with
  | in1 :: in2 :: _ =>
    if rankOne in1.shape then some [in2, in1]
    else if rankOne in2.shape then some [in1, in2]
    else none
  | _ => none

/-- The data a successful match of the bias-gelu pattern yields: the input
list for the replacement node and the matched Gelu node. -/
structure FusionMatch : Type where
  geluInput : List NodeArg
  geluNode : Node

/-- Lines 26-60 of `BiasGelu::ApplyImpl`: the chain of checks that either
declines (`continue`, modelled as `none`) or accepts the candidate Add node
`nd`, in exactly the source's order: Add op/version/domain, compatible
provider, output edge count exactly 1, bias-shape check, existence of a
consumer, Gelu op/version/domain of the consumer, equal execution provider,
and no output of `nd` being a graph-level output. -/
def matchBiasGelu (compatibleEps : List String) (g : Graph) (nd : Node) :
    Option FusionMatch :=
  if !isSupportedOptypeVersionAndDomain nd "Add" [7] kOnnxDomain
      || !isSupportedProvider nd compatibleEps
      || g.outputEdgesCount nd != 1 then
    none
  else
    match biasGeluInputs nd with
    | none => none
    | some geluInput =>
      match g.outputNodes nd with
      | [] => none
      | nextNode :: _ =>
        if !isSupportedOptypeVersionAndDomain nextNode "Gelu" [1] kMSDomain
            || nextNode.execProvider != nd.execProvider then
          none
        else if !(g.getNodeOutputsInGraphOutputs nd).isEmpty then
          none
        else
          some ⟨geluInput, nextNode⟩

/-- Modelled from the spec: `graph_utils::FinalizeNodeFusion` transfers the
last matched node's output definitions verbatim to the replacement node and
then removes every node of the matched chain (here: the Add node `addNd` and
the Gelu node `geluNd`). -/
def finalizeNodeFusion (g : Graph) (addNd geluNd : Node) (fusedIdx : Nat) : Graph :=
  ((g.setNodeOutputDefs fusedIdx geluNd.outputDefs).removeNode addNd.index).removeNode
    geluNd.index

/-- Lines 62-80 of `BiasGelu::ApplyImpl`: create the replacement `BiasGelu`
node with the matched `gelu_input`, assign it the Gelu node's execution
provider, and finalize the fusion. -/
def fuseBiasGelu (g : Graph) (addNd : Node) (fm : FusionMatch) : Graph :=
  let r1 := g.generateNodeName "BiasGelu"
  let r2 := r1.1.addNode r1.2 "BiasGelu" fm.geluInput [] kMSDomain 1
  let g3 := r2.1.setNodeExecProvider r2.2 fm.geluNode.execProvider
  finalizeNodeFusion g3 addNd fm.geluNode r2.2

/-- Modelled from the spec: `GraphTransformer::Recurse` applies the transform
to each nested subgraph of a node in order, threading the shared `modified`
flag; `recurse` is the transform applied to one subgraph. -/
def recurseSubgraphs (recurse : Graph → Bool → Graph × Bool) :
    List Graph → Bool → List Graph × Bool
  | [], m => ([], m)
  | sg :: rest, m =>
    let r := recurse sg m
    let rs := recurseSubgraphs recurse rest r.2
    (r.1 :: rs.1, rs.2)

/-- The body of the main loop of `BiasGelu::ApplyImpl` (lines 17-81) for one
entry `i` of the captured topological order: fetch the node (skipping removed
nodes), recurse into its subgraphs and write them back, then match the
bias-gelu pattern and, on a match, fuse and set the modified flag. -/
def visitNode (compatibleEps : List String) (recurse : Graph → Bool → Graph × Bool)
    (acc : Graph × Bool) (i : Nat) : Graph × Bool :=
  match acc.1.getNode i with
  | none => acc
  | some nd =>
    let r := recurseSubgraphs recurse nd.subgraphs acc.2
    let nd2 := nd.setSubgraphs r.1
    let g2 := acc.1.setNode i nd2
    match matchBiasGelu compatibleEps g2 nd2 with
    | none => (g2, r.2)
    | some fm => (fuseBiasGelu g2 nd2 fm, true)

/-- One sweep of `BiasGelu::ApplyImpl` over a single graph: fold the per-node
body over the topological order captured from the graph before any rewrite of
this sweep (the source's `GraphViewer` snapshot, lines 14-15). -/
def applySweep (compatibleEps : List String) (recurse : Graph → Bool → Graph × Bool)
    (g : Graph) (modified : Bool) : Graph × Bool :=
  g.getNodesInTopologicalOrder.foldl (visitNode compatibleEps recurse) (g, modified)

/-- The whole `BiasGelu::ApplyImpl`, with `fuel` bounding the nesting depth of the
subgraph recursion (the C++ recursion is bounded by the model's control-flow
nesting depth; on graphs whose nesting is shallower than `fuel` the bound is
never reached, and on flat graphs every fuel value agrees). -/
def applyImpl (compatibleEps : List String) : Nat → Graph → Bool → Graph × Bool
  | 0, g, m => applySweep compatibleEps (fun sg mm => (sg, mm)) g m
  | fuel + 1, g, m => applySweep compatibleEps (applyImpl compatibleEps fuel) g m

/-- All stored node indices are below the graph's next fresh index. -/
def Graph.indicesBelowNext (g : Graph) : Prop :=
  ∀ nd ∈ g.nodes, nd.index < g.nextIndex

/-- No two stored nodes share a stable index. -/
def Graph.nodupIndices (g : Graph) : Prop :=
  (g.nodes.map Node.index).Nodup

instance (g : Graph) : Decidable g.indicesBelowNext := by
  unfold Graph.indicesBelowNext; infer_instance

instance (g : Graph) : Decidable g.nodupIndices := by
  unfold Graph.nodupIndices; infer_instance

theorem matchBiasGelu_some {eps : List String} {g : Graph} {nd : Node} {fm : FusionMatch}
    (h : matchBiasGelu eps g nd = some fm) :
    isSupportedOptypeVersionAndDomain nd "Add" [7] kOnnxDomain = true ∧
    isSupportedProvider nd eps = true ∧
    g.outputEdgesCount nd = 1 ∧
    biasGeluInputs nd = some fm.geluInput ∧
    (∃ rest, g.outputNodes nd = fm.geluNode :: rest) ∧
    isSupportedOptypeVersionAndDomain fm.geluNode "Gelu" [1] kMSDomain = true ∧
    fm.geluNode.execProvider = nd.execProvider ∧
    g.getNodeOutputsInGraphOutputs nd = [] := by
  unfold matchBiasGelu at h
  split at h
  · exact absurd h (by simp)
  · rename_i hc1
    simp only [Bool.or_eq_true, not_or, Bool.not_eq_true', bne_iff_ne, ne_eq, not_not,
      Bool.not_eq_false] at hc1
    obtain ⟨⟨hAdd, hProv⟩, hEdges⟩ := hc1
    split at h
    · exact absurd h (by simp)
    · rename_i geluInput hbg
      split at h
      · exact absurd h (by simp)
      · rename_i nextNode rest hout
        split at h
        · exact absurd h (by simp)
        · rename_i hc2
          simp only [Bool.or_eq_true, not_or, Bool.not_eq_true', bne_iff_ne, ne_eq,
            not_not, Bool.not_eq_false] at hc2
          obtain ⟨hGelu, hEp⟩ := hc2
          split at h
          · exact absurd h (by simp)
          · rename_i hgo
            simp only [Bool.not_eq_true', List.isEmpty_eq_true] at hgo
            cases h
            exact ⟨hAdd, hProv, hEdges, hbg, ⟨rest, hout⟩, hGelu, hEp,
              by simpa using hgo⟩

/-- The replacement node as it stands in the graph at the end of a fusion:
fresh index, generated name, `BiasGelu` operator in the MS domain, the matched
`gelu_input` list, the Gelu node's output definitions, and the Gelu node's
execution provider. -/
def fusedNode (g : Graph) (fm : FusionMatch) : Node :=
  .mk g.nextIndex ("BiasGelu" ++ toString g.nameCounter) "BiasGelu" kMSDomain 1
    fm.geluInput fm.geluNode.outputDefs fm.geluNode.execProvider []

theorem map_ite_index_eq_self {l : List Node} {j : Nat} {f : Node → Node}
    (h : ∀ n ∈ l, (n.index == j) = false) :
    (l.map fun n => if n.index == j then f n else n) = l := by
  rw [List.map_congr_left (g := fun n => n) fun n hn => by rw [if_neg]; simp [h n hn]]
  exact l.map_id'

theorem map_ite_index_append {ns : List Node} {j : Nat} {f : Node → Node} {a : Node}
    (h : ∀ n ∈ ns, (n.index == j) = false) (haj : a.index = j) :
    ((ns ++ [a]).map fun n => if n.index == j then f n else n) = ns ++ [f a] := by
  rw [List.map_append, map_ite_index_eq_self h]
  simp [haj]

theorem filter_index_ne_append_singleton {ns : List Node} {j : Nat} {a : Node}
    (haj : (a.index != j) = true) :
    ((ns ++ [a]).filter fun n => n.index != j) = (ns.filter fun n => n.index != j) ++ [a] := by
  rw [List.filter_append]
  simp [haj]

theorem fuseBiasGelu_nodes {g : Graph} {addNd : Node} {fm : FusionMatch}
    (hwf : g.indicesBelowNext) (ha : addNd ∈ g.nodes) (hg : fm.geluNode ∈ g.nodes) :
    (fuseBiasGelu g addNd fm).nodes =
      ((g.nodes.filter fun n => n.index != addNd.index).filter
        fun n => n.index != fm.geluNode.index) ++ [fusedNode g fm] := by
  have haIdx : addNd.index ≠ g.nextIndex := Nat.ne_of_lt (hwf addNd ha)
  have hgIdx : fm.geluNode.index ≠ g.nextIndex := Nat.ne_of_lt (hwf fm.geluNode hg)
  obtain ⟨ns, gi, go, nx, nc⟩ := g
  simp only [Graph.indicesBelowNext, Graph.nodes, Graph.nextIndex] at hwf
  simp only [Graph.nodes, Graph.nextIndex, Graph.nameCounter] at haIdx hgIdx ⊢
  have hlt : ∀ n ∈ ns, (n.index == nx) = false := fun n hn => by
    simpa using Nat.ne_of_lt (hwf n hn)
  show ((((ns ++ [Node.mk nx ("BiasGelu" ++ toString nc) "BiasGelu" kMSDomain 1
      fm.geluInput [] "" []]).map fun n =>
        if n.index == nx then n.setExecProvider fm.geluNode.execProvider else n).map
          fun n => if n.index == nx then n.setOutputDefs fm.geluNode.outputDefs else n).filter
            fun n => n.index != addNd.index).filter (fun n => n.index != fm.geluNode.index) = _
  rw [map_ite_index_append hlt (by simp [Node.index])]
  rw [map_ite_index_append hlt (by simp [Node.setExecProvider, Node.index])]
  rw [filter_index_ne_append_singleton
    (by simp only [Node.setExecProvider, Node.setOutputDefs, Node.index]; simpa using Ne.symm haIdx)]
  rw [filter_index_ne_append_singleton
    (by simp only [Node.setExecProvider, Node.setOutputDefs, Node.index]; simpa using Ne.symm hgIdx)]
  simp [Node.setExecProvider, Node.setOutputDefs, fusedNode, Graph.nextIndex, Graph.nameCounter]

theorem mem_of_mem_outputNodes {g : Graph} {nd c : Node}
    (h : c ∈ g.outputNodes nd) : c ∈ g.nodes :=
  (List.mem_filter.mp h).1

theorem geluNode_mem {eps : List String} {g : Graph} {nd : Node} {fm : FusionMatch}
    (h : matchBiasGelu eps g nd = some fm) : fm.geluNode ∈ g.nodes := by
  obtain ⟨-, -, -, -, ⟨rest, hout⟩, -⟩ := matchBiasGelu_some h
  exact mem_of_mem_outputNodes (hout ▸ List.mem_cons_self fm.geluNode rest)

theorem getNode_fuseBiasGelu {g : Graph} {addNd : Node} {fm : FusionMatch}
    (hwf : g.indicesBelowNext) (ha : addNd ∈ g.nodes) (hg : fm.geluNode ∈ g.nodes) :
    (fuseBiasGelu g addNd fm).getNode g.nextIndex = some (fusedNode g fm) := by
  have hnodes := fuseBiasGelu_nodes hwf ha hg
  have hnext : (fuseBiasGelu g addNd fm).nextIndex = g.nextIndex + 1 := by
    obtain ⟨ns, gi, go, nx, nc⟩ := g
    rfl
  unfold Graph.getNode
  rw [hnodes, List.find?_append]
  have hnone : (((g.nodes.filter fun n => n.index != addNd.index).filter
      fun n => n.index != fm.geluNode.index).find? fun nd => nd.index == g.nextIndex) = none := by
    rw [List.find?_eq_none]
    intro x hx
    have hxg : x ∈ g.nodes := (List.mem_filter.mp (List.mem_filter.mp hx).1).1
    simpa using Nat.ne_of_lt (hwf x hxg)
  rw [hnone]
  simp [fusedNode, Node.index]

theorem length_filter_index_ne {l : List Node} {a : Node} (ha : a ∈ l)
    (hn : (l.map Node.index).Nodup) :
    (l.filter fun n => n.index != a.index).length + 1 = l.length := by
  induction l with
  | nil => cases ha
  | cons h t ih =>
    rw [List.map_cons, List.nodup_cons] at hn
    rcases List.mem_cons.mp ha with rfl | hat
    · rw [List.filter_cons_of_neg (by simp)]
      have : (t.filter fun n => n.index != a.index) = t := by
        rw [List.filter_eq_self]
        intro n hnt
        simp only [bne_iff_ne, ne_eq]
        intro hcontra
        exact hn.1 (hcontra ▸ List.mem_map_of_mem Node.index hnt)
      rw [this]
      rfl
    · have hne : (h.index != a.index) = true := by
        simp only [bne_iff_ne, ne_eq]
        intro hcontra
        exact hn.1 (hcontra ▸ List.mem_map_of_mem Node.index hat)
      rw [List.filter_cons, if_pos hne, List.length_cons, List.length_cons,
        ih hat hn.2]

theorem index_inj {l : List Node} (hn : (l.map Node.index).Nodup) {a b : Node}
    (ha : a ∈ l) (hb : b ∈ l) (hab : a.index = b.index) : a = b :=
  List.inj_on_of_nodup_map hn ha hb hab

theorem setNode_getNode_self {g : Graph} {i : Nat} {nd : Node}
    (hget : g.getNode i = some nd) (hn : g.nodupIndices) :
    g.setNode i nd = g := by
  have hmem : nd ∈ g.nodes := List.mem_of_find?_eq_some hget
  have hidx : nd.index = i := by simpa using List.find?_some hget
  have : (g.nodes.map fun n => if n.index == i then nd else n) = g.nodes := by
    rw [List.map_congr_left (g := fun n => n) fun n hnmem => by
      by_cases hcase : (n.index == i) = true
      · rw [if_pos hcase]
        show nd = n
        exact index_inj hn hmem hnmem (hidx.trans (beq_iff_eq.mp hcase).symm)
      · rw [if_neg hcase]]
    exact g.nodes.map_id'
  obtain ⟨ns, gi, go, nx, nc⟩ := g
  simp only [Graph.nodes] at this
  simp only [Graph.setNode, Graph.nodes, Graph.graphInputs, Graph.graphOutputs,
    Graph.nextIndex, Graph.nameCounter, this]

/-! Concrete scenario graphs from the spec's testable properties, used to
witness the claim theorems.  Scenario A: `Add(bias[2], X[2,2]) -> Gelu -> y`;
scenario B adds `a` to the graph outputs; scenario C has no rank-1 input;
scenario D gives the Add a second consumer; scenario E has two rank-1
inputs. -/

def argBias : NodeArg := ⟨"bias", some ⟨[.fixed 2]⟩, "float"⟩

def argBias2 : NodeArg := ⟨"bias2", some ⟨[.fixed 2]⟩, "float"⟩

def argX : NodeArg := ⟨"X", some ⟨[.fixed 2, .fixed 2]⟩, "float"⟩

def argY2 : NodeArg := ⟨"Y", some ⟨[.fixed 2, .fixed 2]⟩, "float"⟩

def argA : NodeArg := ⟨"a", some ⟨[.fixed 2, .fixed 2]⟩, "float"⟩

def argOut : NodeArg := ⟨"y", some ⟨[.fixed 2, .fixed 2]⟩, "float"⟩

def argZ : NodeArg := ⟨"z", some ⟨[.fixed 2, .fixed 2]⟩, "float"⟩

def addA : Node := .mk 0 "add0" "Add" "" 7 [argBias, argX] [argA] "cpu" []

def geluA : Node := .mk 1 "gelu0" "Gelu" "com.microsoft" 1 [argA] [argOut] "cpu" []

def epsCpu : List String := ["cpu"]

def gA : Graph := .mk [addA, geluA] ["bias", "X"] ["y"] 2 0

def gB : Graph := .mk [addA, geluA] ["bias", "X"] ["a", "y"] 2 0

def addC : Node := .mk 0 "add0" "Add" "" 7 [argX, argY2] [argA] "cpu" []

def gC : Graph := .mk [addC, geluA] ["X", "Y"] ["y"] 2 0

def reluD : Node := .mk 2 "relu0" "Relu" "" 14 [argA] [argZ] "cpu" []

def gD : Graph := .mk [addA, geluA, reluD] ["bias", "X"] ["y", "z"] 3 0

def addE : Node := .mk 0 "add0" "Add" "" 7 [argBias, argBias2] [argA] "cpu" []

def gE : Graph := .mk [addE, geluA] ["bias", "bias2"] ["y"] 2 0

/-- Claim C5: a candidate Add node is fused only if it has exactly one
consuming edge in total; whenever its output edge count differs from 1 the
rule declines the candidate, so it is never fused. -/
theorem claim5_single_consumer {eps : List String} {g : Graph} {nd : Node}
    (h : g.outputEdgesCount nd ≠ 1) : matchBiasGelu eps g nd = none := by
  unfold matchBiasGelu
  rw [if_pos (by simp [bne_iff_ne, h])]

/-- Witness for C5 at scenario D: the Add feeds both the Gelu and a Relu, so
its output edge count is 2 and the rule declines. -/
theorem claim5_witness :
    gD.outputEdgesCount addA ≠ 1 ∧ matchBiasGelu epsCpu gD addA = none :=
  ⟨by decide, claim5_single_consumer (by decide)⟩

/-- Claim C4: if any output of the candidate Add node is a declared
graph-level output, the rule declines the candidate, and (for a node without
nested subgraphs, in a graph with unique node indices) the sweep body leaves
the graph and the modified flag exactly as they were. -/
theorem claim4_graph_output_blocks_fusion {eps : List String} {g : Graph} {nd : Node}
    {i : Nat} {m : Bool} {recurse : Graph → Bool → Graph × Bool}
    (hout : (g.getNodeOutputsInGraphOutputs nd).isEmpty = false) :
    matchBiasGelu eps g nd = none ∧
    (g.getNode i = some nd → nd.subgraphs = [] → g.nodupIndices →
      visitNode eps recurse (g, m) i = (g, m)) := by
  have hnone : matchBiasGelu eps g nd = none := by
    unfold matchBiasGelu
    split
    · rfl
    · split
      · rfl
      · split
        · rfl
        · split
          · rfl
          · rw [if_pos (by simp [hout])]
  refine ⟨hnone, fun hget hsub hnodup => ?_⟩
  unfold visitNode
  rw [hget]
  simp only [hsub]
  have hsets : nd.setSubgraphs (recurseSubgraphs recurse [] m).1 = nd := by
    obtain ⟨i', n', t', d', v', ins', outs', p', s'⟩ := nd
    simp only [Node.subgraphs] at hsub
    simp [recurseSubgraphs, Node.setSubgraphs, hsub]
  rw [hsets, setNode_getNode_self hget hnodup]
  show (match matchBiasGelu eps g nd with
    | none => (g, (recurseSubgraphs recurse [] m).2)
    | some fm => (fuseBiasGelu g nd fm, true)) = (g, m)
  rw [hnone]
  rfl

/-- Witness for C4 at scenario B: the Add's output `a` is a declared graph
output, so no fusion happens and the sweep body is the identity. -/
theorem claim4_witness :
    (gB.getNodeOutputsInGraphOutputs addA).isEmpty = false ∧
    matchBiasGelu epsCpu gB addA = none ∧
    visitNode epsCpu (fun sg mm => (sg, mm)) (gB, false) 0 = (gB, false) :=
  ⟨by decide,
   (@claim4_graph_output_blocks_fusion epsCpu gB addA 0 false
     (fun sg mm => (sg, mm)) (by decide)).1,
   (@claim4_graph_output_blocks_fusion epsCpu gB addA 0 false
     (fun sg mm => (sg, mm)) (by decide)).2
     (show gB.getNode 0 = some addA from rfl) rfl (by decide)⟩

theorem biasGeluInputs_eq {nd : Node} {in1 in2 : NodeArg} {rest : List NodeArg}
    (hins : nd.inputDefs = in1 :: in2 :: rest) :
    biasGeluInputs nd =
      if rankOne in1.shape then some [in2, in1]
      else if rankOne in2.shape then some [in1, in2] else none := by
  unfold biasGeluInputs
  rw [hins]

/-- Counterexample to claim C2 at scenario A: the Add's first input `bias`
qualifies (rank 1) and is chosen as the bias, but in the replacement node's
input list `[X, bias]` the bias occupies input 1, not input 0 — input 0 is
the other operand `X`. -/
theorem claim2_counterexample :
    addA.inputDefs = [argBias, argX] ∧
    rankOne argBias.shape = true ∧
    (applyImpl epsCpu 1 gA false).1.nodes.map Node.inputDefs = [[argX, argBias]] ∧
    argX ≠ argBias := by
  refine ⟨rfl, by decide, by decide, by decide⟩

/-- Claim C2 as amended: the first input's shape is checked first; if it
qualifies it is taken as the bias and becomes input 1 of the replacement
while the other operand becomes input 0; only otherwise is the second input
checked the same way (so when both inputs are rank 1, the first is the
bias). -/
theorem claim2_amended_bias_is_second_input {eps : List String} {g : Graph}
    {addNd : Node} {fm : FusionMatch} {in1 in2 : NodeArg} {rest : List NodeArg}
    (hins : addNd.inputDefs = in1 :: in2 :: rest)
    (hmatch : matchBiasGelu eps g addNd = some fm) :
    (rankOne in1.shape = true → fm.geluInput = [in2, in1]) ∧
    (rankOne in1.shape = false →
      rankOne in2.shape = true ∧ fm.geluInput = [in1, in2]) := by
  obtain ⟨-, -, -, hbg, -⟩ := matchBiasGelu_some hmatch
  rw [biasGeluInputs_eq hins] at hbg
  constructor
  · intro h1
    rw [if_pos h1] at hbg
    exact (Option.some_inj.mp hbg).symm
  · intro h1
    rw [if_neg (by simp [h1])] at hbg
    by_cases h2 : rankOne in2.shape = true
    · rw [if_pos h2] at hbg
      exact ⟨h2, (Option.some_inj.mp hbg).symm⟩
    · rw [if_neg h2] at hbg
      cases hbg

/-- Witness for the amended C2 at scenario A: the first input `bias`
qualifies, and the replacement input list is `[X, bias]` with the bias at
input 1. -/
theorem claim2_amended_witness :
    rankOne argBias.shape = true ∧
    (FusionMatch.mk [argX, argBias] geluA).geluInput = [argX, argBias] :=
  ⟨by decide,
   (claim2_amended_bias_is_second_input
      (show addA.inputDefs = argBias :: argX :: [] from rfl)
      (show matchBiasGelu epsCpu gA addA = some ⟨[argX, argBias], geluA⟩ from rfl)).1
     (by decide)⟩

/-- Counterexample to claim C3 at scenario E: both inputs of the Add have
statically known rank-1 shapes (so it is not the case that exactly one
does), yet the rule fuses the pattern. -/
theorem claim3_counterexample :
    rankOne argBias.shape = true ∧
    rankOne argBias2.shape = true ∧
    addE.inputDefs = [argBias, argBias2] ∧
    (applyImpl epsCpu 1 gE false).2 = true ∧
    (applyImpl epsCpu 1 gE false).1.nodes.map Node.opType = ["BiasGelu"] := by
  refine ⟨by decide, by decide, rfl, by decide, by decide⟩

/-- Claim C3 as amended: fusion is attempted only when at least one of the
Add node's two inputs has a statically known rank-1 shape, where rank 1 is
decided solely by the shape's dimension count equalling 1 (absent shapes
never qualify); when neither input qualifies the rule declines. -/
theorem claim3_amended_at_least_one_rank_one {eps : List String} {g : Graph}
    {addNd : Node} {in1 in2 : NodeArg} {rest : List NodeArg}
    (hins : addNd.inputDefs = in1 :: in2 :: rest) :
    (∀ fm, matchBiasGelu eps g addNd = some fm →
      rankOne in1.shape = true ∨ rankOne in2.shape = true) ∧
    (rankOne in1.shape = false → rankOne in2.shape = false →
      matchBiasGelu eps g addNd = none) ∧
    (∀ s : TensorShapeProto, rankOne (some s) = (s.dimSize == 1)) ∧
    rankOne none = false := by
  refine ⟨?_, ?_, fun s => rfl, rfl⟩
  · intro fm hmatch
    obtain ⟨-, -, -, hbg, -⟩ := matchBiasGelu_some hmatch
    rw [biasGeluInputs_eq hins] at hbg
    by_cases h1 : rankOne in1.shape = true
    · exact Or.inl h1
    · by_cases h2 : rankOne in2.shape = true
      · exact Or.inr h2
      · rw [if_neg h1, if_neg h2] at hbg
        cases hbg
  · intro h1 h2
    have hbgnone : biasGeluInputs addNd = none := by
      rw [biasGeluInputs_eq hins, if_neg (by simp [h1]), if_neg (by simp [h2])]
    unfold matchBiasGelu
    split
    · rfl
    · rw [hbgnone]

/-- Witness for the amended C3 at scenario C: neither input of the Add has a
rank-1 shape, and the rule declines. -/
theorem claim3_amended_witness :
    rankOne argX.shape = false ∧ rankOne argY2.shape = false ∧
    matchBiasGelu epsCpu gC addC = none :=
  ⟨by decide, by decide,
   (claim3_amended_at_least_one_rank_one
      (show addC.inputDefs = argX :: argY2 :: [] from rfl)).2.1
     (by decide) (by decide)⟩

/-- Claim C1: for every successful bias-gelu fusion, the replacement
`BiasGelu` node's input list is `[main operand, bias vector]` in that fixed
order — the bias is the rank-1 input the match selected, whichever physical
input slot of the Add held it — and the node looked up at the fresh index
after the fusion is the `BiasGelu` replacement carrying exactly that input
list. -/
theorem claim1_replacement_input_order {eps : List String} {g : Graph} {addNd : Node}
    {fm : FusionMatch} {in1 in2 : NodeArg} {rest : List NodeArg}
    (hins : addNd.inputDefs = in1 :: in2 :: rest)
    (hmatch : matchBiasGelu eps g addNd = some fm)
    (hwf : g.indicesBelowNext) (ha : addNd ∈ g.nodes) :
    (∃ mainOp biasArg, fm.geluInput = [mainOp, biasArg] ∧ rankOne biasArg.shape = true ∧
      ((biasArg = in1 ∧ mainOp = in2) ∨ (biasArg = in2 ∧ mainOp = in1))) ∧
    ∃ fn, (fuseBiasGelu g addNd fm).getNode g.nextIndex = some fn ∧
      fn.inputDefs = fm.geluInput ∧ fn.opType = "BiasGelu" := by
  obtain ⟨-, -, -, hbg, -⟩ := matchBiasGelu_some hmatch
  rw [biasGeluInputs_eq hins] at hbg
  constructor
  · by_cases h1 : rankOne in1.shape = true
    · rw [if_pos h1] at hbg
      exact ⟨in2, in1, (Option.some_inj.mp hbg).symm, h1, Or.inl ⟨rfl, rfl⟩⟩
    · by_cases h2 : rankOne in2.shape = true
      · rw [if_neg h1, if_pos h2] at hbg
        exact ⟨in1, in2, (Option.some_inj.mp hbg).symm, h2, Or.inr ⟨rfl, rfl⟩⟩
      · rw [if_neg h1, if_neg h2] at hbg
        cases hbg
  · exact ⟨fusedNode g fm, getNode_fuseBiasGelu hwf ha (geluNode_mem hmatch),
      by simp [fusedNode, Node.inputDefs], by simp [fusedNode, Node.opType]⟩

/-- Witness for C1 at scenario A: the bias occupied the Add's first slot,
and the replacement's inputs are `[X, bias]`. -/
theorem claim1_witness :
    gA.indicesBelowNext ∧
    ((∃ m b, (FusionMatch.mk [argX, argBias] geluA).geluInput = [m, b] ∧
        rankOne b.shape = true ∧
        ((b = argBias ∧ m = argX) ∨ (b = argX ∧ m = argBias))) ∧
      ∃ fn, (fuseBiasGelu gA addA ⟨[argX, argBias], geluA⟩).getNode gA.nextIndex = some fn ∧
        fn.inputDefs = (FusionMatch.mk [argX, argBias] geluA).geluInput ∧
        fn.opType = "BiasGelu") :=
  ⟨by decide,
   claim1_replacement_input_order
     (show addA.inputDefs = argBias :: argX :: [] from rfl)
     (show matchBiasGelu epsCpu gA addA = some ⟨[argX, argBias], geluA⟩ from rfl)
     (by decide) (List.Mem.head _)⟩

/-- Claim C6: fusion happens only when the Add's sole consumer is a Gelu
node of the required type/version/domain whose execution provider equals the
Add's, and the replacement node created by the fusion carries that same
shared provider. -/
theorem claim6_gelu_consumer_and_provider {eps : List String} {g : Graph}
    {addNd : Node} {fm : FusionMatch}
    (hmatch : matchBiasGelu eps g addNd = some fm)
    (hwf : g.indicesBelowNext) (ha : addNd ∈ g.nodes) :
    g.outputEdgesCount addNd = 1 ∧
    (∃ rest, g.outputNodes addNd = fm.geluNode :: rest) ∧
    isSupportedOptypeVersionAndDomain fm.geluNode "Gelu" [1] kMSDomain = true ∧
    fm.geluNode.execProvider = addNd.execProvider ∧
    ∃ fn, (fuseBiasGelu g addNd fm).getNode g.nextIndex = some fn ∧
      fn.execProvider = fm.geluNode.execProvider ∧
      fn.execProvider = addNd.execProvider := by
  obtain ⟨-, -, hedges, -, hout, hgelu, hep, -⟩ := matchBiasGelu_some hmatch
  exact ⟨hedges, hout, hgelu, hep,
    fusedNode g fm, getNode_fuseBiasGelu hwf ha (geluNode_mem hmatch),
    rfl, by rw [show (fusedNode g fm).execProvider = fm.geluNode.execProvider from rfl, hep]⟩

/-- Witness for C6 at scenario A: the sole consumer is the Gelu on the same
provider `cpu`, and the replacement node carries provider `cpu`. -/
theorem claim6_witness :
    gA.indicesBelowNext ∧
    (gA.outputEdgesCount addA = 1 ∧
      (∃ r, gA.outputNodes addA = (FusionMatch.mk [argX, argBias] geluA).geluNode :: r) ∧
      isSupportedOptypeVersionAndDomain
        (FusionMatch.mk [argX, argBias] geluA).geluNode "Gelu" [1] kMSDomain = true ∧
      (FusionMatch.mk [argX, argBias] geluA).geluNode.execProvider = addA.execProvider ∧
      ∃ fn, (fuseBiasGelu gA addA ⟨[argX, argBias], geluA⟩).getNode gA.nextIndex = some fn ∧
        fn.execProvider = (FusionMatch.mk [argX, argBias] geluA).geluNode.execProvider ∧
        fn.execProvider = addA.execProvider) :=
  ⟨by decide,
   claim6_gelu_consumer_and_provider
     (show matchBiasGelu epsCpu gA addA = some ⟨[argX, argBias], geluA⟩ from rfl)
     (by decide) (List.Mem.head _)⟩

theorem addNd_opType {eps : List String} {g : Graph} {nd : Node} {fm : FusionMatch}
    (h : matchBiasGelu eps g nd = some fm) :
    nd.opType = "Add" ∧ fm.geluNode.opType = "Gelu" := by
  obtain ⟨hAdd, -, -, -, -, hGelu, -⟩ := matchBiasGelu_some h
  simp only [isSupportedOptypeVersionAndDomain, Bool.and_eq_true, beq_iff_eq] at hAdd hGelu
  exact ⟨hAdd.1.1, hGelu.1.1⟩

theorem geluNode_index_ne {eps : List String} {g : Graph} {nd : Node} {fm : FusionMatch}
    (h : matchBiasGelu eps g nd = some fm) (hnodup : g.nodupIndices) (ha : nd ∈ g.nodes) :
    fm.geluNode.index ≠ nd.index := by
  intro hidx
  have heq := index_inj hnodup (geluNode_mem h) ha hidx
  have hops := addNd_opType h
  have : ("Gelu" : String) = "Add" := by rw [← hops.2, heq, hops.1]
  exact absurd this (by decide)

/-- Claim C8: a successful fusion of the matched chain `[Add, Gelu]` adds
one node (the replacement) and removes two (the matched chain), so the
graph's node count decreases by exactly one — the chain length two minus
one. -/
theorem claim8_node_count {eps : List String} {g : Graph} {addNd : Node} {fm : FusionMatch}
    (hmatch : matchBiasGelu eps g addNd = some fm)
    (hwf : g.indicesBelowNext) (hnodup : g.nodupIndices) (ha : addNd ∈ g.nodes) :
    (fuseBiasGelu g addNd fm).nodes.length + 1 = g.nodes.length := by
  have hg : fm.geluNode ∈ g.nodes := geluNode_mem hmatch
  have hnodes := fuseBiasGelu_nodes hwf ha hg
  have hne : fm.geluNode.index ≠ addNd.index := geluNode_index_ne hmatch hnodup ha
  have h1 : ((g.nodes.filter fun n => n.index != addNd.index).length + 1) = g.nodes.length :=
    length_filter_index_ne ha hnodup
  have hgmem1 : fm.geluNode ∈ g.nodes.filter fun n => n.index != addNd.index :=
    List.mem_filter.mpr ⟨hg, by simpa using hne⟩
  have hnodup1 : ((g.nodes.filter fun n => n.index != addNd.index).map Node.index).Nodup :=
    (((List.filter_sublist g.nodes).map Node.index).nodup hnodup)
  have h2 := length_filter_index_ne hgmem1 hnodup1
  rw [hnodes, List.length_append]
  simp only [List.length_singleton]
  omega

/-- Witness for C8 at scenario A: two nodes before the fusion, one after. -/
theorem claim8_witness :
    gA.indicesBelowNext ∧ gA.nodupIndices ∧
    (fuseBiasGelu gA addA ⟨[argX, argBias], geluA⟩).nodes.length + 1 = gA.nodes.length :=
  ⟨by decide, by decide,
   claim8_node_count
     (show matchBiasGelu epsCpu gA addA = some ⟨[argX, argBias], geluA⟩ from rfl)
     (by decide) (by decide) (List.Mem.head _)⟩

/-- Value `arg` is an output value named `nm` produced by some node of `g`. -/
def producesArg (g : Graph) (nm : String) (arg : NodeArg) : Prop :=
  ∃ nd ∈ g.nodes, arg ∈ nd.outputDefs ∧ arg.name = nm

/-- Claim C7: for every fusion performed, the replacement node takes over
the Gelu node's output definitions verbatim, so the declared graph-level
output names are unchanged, and for every declared graph output name the set
of producing `NodeArg`s (value name with its shape/type metadata) is
identical before and after the fusion. -/
theorem claim7_output_preservation {eps : List String} {g : Graph} {addNd : Node}
    {fm : FusionMatch}
    (hmatch : matchBiasGelu eps g addNd = some fm)
    (hwf : g.indicesBelowNext) (hnodup : g.nodupIndices) (ha : addNd ∈ g.nodes) :
    (fuseBiasGelu g addNd fm).graphOutputs = g.graphOutputs ∧
    (∃ fn, (fuseBiasGelu g addNd fm).getNode g.nextIndex = some fn ∧
      fn.outputDefs = fm.geluNode.outputDefs) ∧
    ∀ nm ∈ g.graphOutputs, ∀ arg,
      producesArg (fuseBiasGelu g addNd fm) nm arg ↔ producesArg g nm arg := by
  have hg : fm.geluNode ∈ g.nodes := geluNode_mem hmatch
  have hnodes := fuseBiasGelu_nodes hwf ha hg
  have hgo : g.getNodeOutputsInGraphOutputs addNd = [] := (matchBiasGelu_some hmatch).2.2.2.2.2.2.2
  refine ⟨?_, ⟨fusedNode g fm, getNode_fuseBiasGelu hwf ha hg, rfl⟩, ?_⟩
  · obtain ⟨ns, gi, go, nx, nc⟩ := g
    rfl
  · intro nm hnm arg
    constructor
    · rintro ⟨nd', hnd', harg, hname⟩
      rw [hnodes] at hnd'
      rcases List.mem_append.mp hnd' with hleft | hright
      · exact ⟨nd', (List.mem_filter.mp (List.mem_filter.mp hleft).1).1, harg, hname⟩
      · have : nd' = fusedNode g fm := List.mem_singleton.mp hright
        subst this
        exact ⟨fm.geluNode, hg, harg, hname⟩
    · rintro ⟨nd, hnd, harg, hname⟩
      by_cases hia : nd.index = addNd.index
      · exfalso
        have hndeq : nd = addNd := index_inj hnodup hnd ha hia
        subst hndeq
        have hmem2 : arg.name ∈ g.graphOutputs := by rw [hname]; exact hnm
        have hcont : g.graphOutputs.contains arg.name = true := by
          simpa [List.contains] using List.elem_eq_true_of_mem hmem2
        exact (List.filter_eq_nil_iff.mp hgo arg harg) hcont
      · by_cases hig : nd.index = fm.geluNode.index
        · have hndeq : nd = fm.geluNode := index_inj hnodup hnd hg hig
          subst hndeq
          refine ⟨fusedNode g fm, ?_, harg, hname⟩
          rw [hnodes]
          exact List.mem_append_right _ (List.mem_singleton.mpr rfl)
        · refine ⟨nd, ?_, harg, hname⟩
          rw [hnodes]
          exact List.mem_append_left _ (List.mem_filter.mpr
            ⟨List.mem_filter.mpr ⟨hnd, by simpa using hia⟩, by simpa using hig⟩)

/-- Witness for C7 at scenario A: graph outputs stay `["y"]` and the
produced output values of `y` are unchanged by the fusion. -/
theorem claim7_witness :
    gA.indicesBelowNext ∧ gA.nodupIndices ∧
    ((fuseBiasGelu gA addA ⟨[argX, argBias], geluA⟩).graphOutputs = gA.graphOutputs ∧
      (∃ fn, (fuseBiasGelu gA addA ⟨[argX, argBias], geluA⟩).getNode gA.nextIndex = some fn ∧
        fn.outputDefs = (FusionMatch.mk [argX, argBias] geluA).geluNode.outputDefs) ∧
      ∀ nm ∈ gA.graphOutputs, ∀ arg,
        producesArg (fuseBiasGelu gA addA ⟨[argX, argBias], geluA⟩) nm arg ↔
          producesArg gA nm arg) :=
  ⟨by decide, by decide,
   claim7_output_preservation
     (show matchBiasGelu epsCpu gA addA = some ⟨[argX, argBias], geluA⟩ from rfl)
     (by decide) (by decide) (List.Mem.head _)⟩

/-- A graph-transform step only ever raises the modified flag: its result on
entry flag `m` is the same graph as on entry flag `false`, with the flag
`m || (flag computed from scratch)`. -/
def flagMono (f : Graph → Bool → Graph × Bool) : Prop :=
  ∀ g m, f g m = ((f g false).1, m || (f g false).2)

theorem flagMono_id : flagMono (fun sg mm => (sg, mm)) := by
  intro g m
  simp

theorem recurseSubgraphs_mono {f : Graph → Bool → Graph × Bool} (hf : flagMono f) :
    ∀ (sgs : List Graph) (m : Bool),
      recurseSubgraphs f sgs m =
        ((recurseSubgraphs f sgs false).1, m || (recurseSubgraphs f sgs false).2) := by
  intro sgs
  induction sgs with
  | nil =>
    intro m
    simp [recurseSubgraphs]
  | cons sg rest ih =>
    intro m
    simp only [recurseSubgraphs]
    rw [hf sg m, ih (m || (f sg false).2), ih (f sg false).2]
    simp [Bool.or_assoc]

theorem visitNode_mono {eps : List String} {recurse : Graph → Bool → Graph × Bool}
    (hf : flagMono recurse) (i : Nat) (g : Graph) (m : Bool) :
    visitNode eps recurse (g, m) i =
      ((visitNode eps recurse (g, false) i).1,
        m || (visitNode eps recurse (g, false) i).2) := by
  unfold visitNode
  cases hget : g.getNode i with
  | none => simp
  | some nd =>
    simp only []
    rw [recurseSubgraphs_mono hf nd.subgraphs m]
    cases hmatch : matchBiasGelu eps
        (g.setNode i (nd.setSubgraphs (recurseSubgraphs recurse nd.subgraphs false).1))
        (nd.setSubgraphs (recurseSubgraphs recurse nd.subgraphs false).1) with
    | none => simp
    | some fm => simp

theorem foldl_visitNode_mono {eps : List String} {recurse : Graph → Bool → Graph × Bool}
    (hf : flagMono recurse) :
    ∀ (l : List Nat) (g : Graph) (m : Bool),
      l.foldl (visitNode eps recurse) (g, m) =
        ((l.foldl (visitNode eps recurse) (g, false)).1,
          m || (l.foldl (visitNode eps recurse) (g, false)).2) := by
  intro l
  induction l with
  | nil =>
    intro g m
    simp
  | cons i rest ih =>
    intro g m
    simp only [List.foldl_cons]
    rcases hV : visitNode eps recurse (g, false) i with ⟨g1, b1⟩
    rw [visitNode_mono hf i g m, hV]
    simp only []
    rw [ih g1 (m || b1), ih g1 b1]
    simp [Bool.or_assoc]

theorem applySweep_mono {eps : List String} {recurse : Graph → Bool → Graph × Bool}
    (hf : flagMono recurse) : flagMono (applySweep eps recurse) := by
  intro g m
  unfold applySweep
  exact foldl_visitNode_mono hf _ g m

theorem applyImpl_mono (eps : List String) : ∀ fuel, flagMono (applyImpl eps fuel)
  | 0 => applySweep_mono flagMono_id
  | fuel + 1 => applySweep_mono (applyImpl_mono eps fuel)

/-- Claim C10: the modified flag is monotone across an invocation of the
rule, its subgraph recursion included: the resulting graph is independent of
the incoming flag, the resulting flag is the incoming flag or-ed with the
flag the run computes from scratch (so a fusion is the only way it is
raised), and a run entered with the flag already set still returns it set. -/
theorem claim10_modified_flag_monotone (eps : List String) (fuel : Nat) (g : Graph) (m : Bool) :
    applyImpl eps fuel g m =
      ((applyImpl eps fuel g false).1, m || (applyImpl eps fuel g false).2) ∧
    (applyImpl eps fuel g true).2 = true :=
  ⟨applyImpl_mono eps fuel g m, by rw [applyImpl_mono eps fuel g true]; simp⟩

theorem fuseBiasGelu_nextIndex {g : Graph} {addNd : Node} {fm : FusionMatch} :
    (fuseBiasGelu g addNd fm).nextIndex = g.nextIndex + 1 := by
  obtain ⟨ns, gi, go, nx, nc⟩ := g
  rfl

theorem setSubgraphs_index {nd : Node} {s : List Graph} :
    (nd.setSubgraphs s).index = nd.index := by
  obtain ⟨i', n', t', d', v', ins', outs', p', s'⟩ := nd
  rfl

theorem setNode_nextIndex {g : Graph} {i : Nat} {nd : Node} :
    (g.setNode i nd).nextIndex = g.nextIndex := by
  obtain ⟨ns, gi, go, nx, nc⟩ := g
  rfl

/-- Overwriting the node stored at index `i` with a node whose index is `i`
(as the sweep does when writing recursively optimized subgraphs back into
their owning node) leaves the graph's index list unchanged. -/
theorem setNode_map_index {g : Graph} {i : Nat} {nd : Node} (h : nd.index = i) :
    (g.setNode i nd).nodes.map Node.index = g.nodes.map Node.index := by
  obtain ⟨ns, gi, go, nx, nc⟩ := g
  simp only [Graph.setNode, Graph.nodes, List.map_map]
  refine List.map_congr_left fun n hn => ?_
  by_cases hc : (n.index == i) = true
  · show (if (n.index == i) = true then nd else n).index = n.index
    rw [if_pos hc, h, beq_iff_eq.mp hc]
  · show (if (n.index == i) = true then nd else n).index = n.index
    rw [if_neg hc]

theorem setNode_self_mem {g : Graph} {i : Nat} {nd nd2 : Node}
    (hmem : nd ∈ g.nodes) (hidx : nd.index = i) :
    nd2 ∈ (g.setNode i nd2).nodes := by
  obtain ⟨ns, gi, go, nx, nc⟩ := g
  simp only [Graph.nodes] at hmem
  simp only [Graph.setNode, Graph.nodes]
  refine List.mem_map.mpr ⟨nd, hmem, ?_⟩
  rw [if_pos (by simpa using hidx)]

theorem indicesBelowNext_setNode {g : Graph} {i : Nat} {nd : Node} (h : nd.index = i)
    (hwf : g.indicesBelowNext) : (g.setNode i nd).indicesBelowNext := by
  intro n hn
  rw [setNode_nextIndex]
  have hmap : n.index ∈ (g.setNode i nd).nodes.map Node.index :=
    List.mem_map_of_mem _ hn
  rw [setNode_map_index h] at hmap
  obtain ⟨x, hx, hxi⟩ := List.mem_map.mp hmap
  exact hxi ▸ hwf x hx

/-- The invariant a sweep maintains on any graph: every stored index either
comes from the pre-sweep topological snapshot or sits at or above the
pre-sweep fresh-index watermark, the watermark only grows, and indices stay
bounded by it. -/
def sweepInv (g0 : Graph) (p : Graph × Bool) : Prop :=
  (∀ j ∈ p.1.nodes.map Node.index,
    j ∈ g0.getNodesInTopologicalOrder ∨ g0.nextIndex ≤ j) ∧
  g0.nextIndex ≤ p.1.nextIndex ∧
  p.1.indicesBelowNext

theorem visitNode_inv {eps : List String} {recurse : Graph → Bool → Graph × Bool}
    {g0 : Graph} {p : Graph × Bool} {i : Nat}
    (h : sweepInv g0 p) : sweepInv g0 (visitNode eps recurse p i) := by
  obtain ⟨g, m⟩ := p
  obtain ⟨hold, hnext, hwf⟩ := h
  dsimp only at hold hnext hwf
  unfold visitNode
  cases hget : g.getNode i with
  | none => exact ⟨hold, hnext, hwf⟩
  | some nd =>
    simp only []
    have hidx : nd.index = i := by simpa using List.find?_some hget
    have hmem : nd ∈ g.nodes := List.mem_of_find?_eq_some hget
    have hidx2 : (nd.setSubgraphs (recurseSubgraphs recurse nd.subgraphs m).1).index = i :=
      setSubgraphs_index.trans hidx
    cases hmatch : matchBiasGelu eps
        (g.setNode i (nd.setSubgraphs (recurseSubgraphs recurse nd.subgraphs m).1))
        (nd.setSubgraphs (recurseSubgraphs recurse nd.subgraphs m).1) with
    | none =>
      refine ⟨?_, ?_, ?_⟩
      · intro j hj
        rw [setNode_map_index hidx2] at hj
        exact hold j hj
      · rw [setNode_nextIndex]
        exact hnext
      · exact indicesBelowNext_setNode hidx2 hwf
    | some fm =>
      have hwf2 := indicesBelowNext_setNode hidx2 hwf
      have hmem2 : nd.setSubgraphs (recurseSubgraphs recurse nd.subgraphs m).1 ∈
          (g.setNode i (nd.setSubgraphs (recurseSubgraphs recurse nd.subgraphs m).1)).nodes :=
        setNode_self_mem hmem hidx
      have hg := geluNode_mem hmatch
      have hnodes := fuseBiasGelu_nodes hwf2 hmem2 hg
      refine ⟨?_, ?_, ?_⟩
      · intro j hj
        rw [hnodes, List.map_append] at hj
        rcases List.mem_append.mp hj with hl | hr
        · obtain ⟨x, hx, hxj⟩ := List.mem_map.mp hl
          have hxg2 := (List.mem_filter.mp (List.mem_filter.mp hx).1).1
          have hjmem : j ∈ (g.setNode i
              (nd.setSubgraphs (recurseSubgraphs recurse nd.subgraphs m).1)).nodes.map
                Node.index :=
            hxj ▸ List.mem_map_of_mem _ hxg2
          rw [setNode_map_index hidx2] at hjmem
          exact hold j hjmem
        · simp only [List.map_cons, List.map_nil, List.mem_singleton] at hr
          right
          rw [hr, show (fusedNode (g.setNode i
              (nd.setSubgraphs (recurseSubgraphs recurse nd.subgraphs m).1)) fm).index =
            (g.setNode i
              (nd.setSubgraphs (recurseSubgraphs recurse nd.subgraphs m).1)).nextIndex from rfl,
            setNode_nextIndex]
          exact hnext
      · rw [fuseBiasGelu_nextIndex, setNode_nextIndex]
        omega
      · intro n hn
        rw [fuseBiasGelu_nextIndex, setNode_nextIndex]
        rw [hnodes] at hn
        rcases List.mem_append.mp hn with hl | hr
        · have hng2 := (List.mem_filter.mp (List.mem_filter.mp hl).1).1
          have := hwf2 n hng2
          rw [setNode_nextIndex] at this
          omega
        · rw [List.mem_singleton.mp hr,
            show (fusedNode (g.setNode i
              (nd.setSubgraphs (recurseSubgraphs recurse nd.subgraphs m).1)) fm).index =
            (g.setNode i
              (nd.setSubgraphs (recurseSubgraphs recurse nd.subgraphs m).1)).nextIndex from rfl,
            setNode_nextIndex]
          omega

theorem foldl_visitNode_inv {eps : List String} {recurse : Graph → Bool → Graph × Bool}
    {g0 : Graph} :
    ∀ (l : List Nat) (p : Graph × Bool), sweepInv g0 p →
      sweepInv g0 (l.foldl (visitNode eps recurse) p) := by
  intro l
  induction l with
  | nil => exact fun p h => h
  | cons i rest ih =>
    intro p h
    exact ih _ (visitNode_inv h)

/-- Claim C9: the sweep iterates over the topological order captured before
any rewrite — every index it can examine comes from that captured order, all
below the pre-sweep fresh-index watermark — and on any graph, nested
subgraphs included, every node left by the sweep either keeps an index from
the captured order (an original node, possibly with recursively optimized
subgraphs written back in place) or is a replacement created by a fusion,
carrying an index at or above the watermark and hence outside the captured
order: such a replacement is never itself examined or matched in the same
pass. -/
theorem claim9_replacement_not_revisited {eps : List String} {fuel : Nat} {g : Graph}
    {m : Bool} (hwf : g.indicesBelowNext) :
    (∀ i ∈ g.getNodesInTopologicalOrder, i < g.nextIndex) ∧
    ∀ nd' ∈ (applyImpl eps fuel g m).1.nodes,
      nd'.index ∈ g.getNodesInTopologicalOrder ∨
        (g.nextIndex ≤ nd'.index ∧ nd'.index ∉ g.getNodesInTopologicalOrder) := by
  have htopo : ∀ i ∈ g.getNodesInTopologicalOrder, i < g.nextIndex := by
    intro i hi
    obtain ⟨x, hx, hxi⟩ := List.mem_map.mp hi
    exact hxi ▸ hwf x hx
  refine ⟨htopo, ?_⟩
  have hinv0 : sweepInv g (g, m) :=
    ⟨fun j hj => Or.inl hj, Nat.le_refl _, hwf⟩
  have hfinal : sweepInv g (applyImpl eps fuel g m) := by
    cases fuel with
    | zero => exact foldl_visitNode_inv _ _ hinv0
    | succ fuel => exact foldl_visitNode_inv _ _ hinv0
  intro nd' hnd'
  have hj : nd'.index ∈ (applyImpl eps fuel g m).1.nodes.map Node.index :=
    List.mem_map_of_mem _ hnd'
  rcases hfinal.1 nd'.index hj with hin | hge
  · exact Or.inl hin
  · right
    refine ⟨hge, fun hmem => ?_⟩
    have := htopo nd'.index hmem
    omega

/-- A control-flow node owning scenario A as a nested subgraph (the spec's
scenario E shape), so the witness graph is not flat. -/
def condNode : Node := .mk 2 "if0" "If" "" 1 [argA] [argZ] "cpu" [gA]

/-- An outer graph with a fusible chain and a nested subgraph. -/
def gNest : Graph := .mk [addA, geluA, condNode] ["bias", "X"] ["y", "z"] 3 0

/-- Witness for C9 on a graph with a nested subgraph: every index the sweep
examines lies in the captured order, and every node it leaves keeps a
captured index or is a fresh-indexed replacement outside that order. -/
theorem claim9_witness :
    gNest.indicesBelowNext ∧
    ((∀ i ∈ gNest.getNodesInTopologicalOrder, i < gNest.nextIndex) ∧
      ∀ nd' ∈ (applyImpl epsCpu 2 gNest false).1.nodes,
        nd'.index ∈ gNest.getNodesInTopologicalOrder ∨
          (gNest.nextIndex ≤ nd'.index ∧ nd'.index ∉ gNest.getNodesInTopologicalOrder)) :=
  ⟨by decide, claim9_replacement_not_revisited (by decide)⟩

end OnnxOpt
